import Mathlib

/-
  Verification development for the PATROL ingestion-and-graph pipeline.

  The definitions below are a shallow embedding of the Python sources:
    src/patrol/protocol.py             (TransferEvidence, StakeEvidence, Edge, Node, GraphPayload)
    src/patrol/constants.py            (Constants)
    src/patrol/validation/miner_scoring.py  (MinerScoring.calculate_score, normalize_scores)
    src/patrol/chain_data/event_fetcher.py  (EventFetcher.fetch_all_events)
    src/patrol/chain_data/event_processor.py (EventProcessor.match_old_stake_events)
    src/patrol/mining/subgraph_generator.py (SubgraphGenerator)

  Modelling conventions:
  * Python dicts with a fixed field vocabulary are modelled as structures whose
    fields are Options; `none` stands for a key that is absent or bound to None
    (the two are indistinguishable for every code path embedded here, since the
    code reads those fields with .get or compares them with `is None`).
  * Python ints are Int (or Nat where the value is a count), floats are Real
    (for the transcendental scoring formulas) or Rat (for the exact-arithmetic
    normalization helper).
  * Fallible constructors (dataclass __init__ together with __post_init__)
    return Option: `none` models a raised exception.
  * Insertion-ordered Python dicts are modelled as association lists, appended
    on the right; lookup takes the first matching key (keys are unique in every
    state the code builds, so this agrees with dict semantics).
-/

namespace Patrol

/-! ## protocol.py: evidence, edges, nodes, payloads -/

/-- `TransferEvidence` dataclass (protocol.py): rao_amount, block_number. -/
structure TransferEvidence where
  rao_amount : Int
  block_number : Int
deriving DecidableEq

/-- `StakeEvidence` dataclass fields (protocol.py).  Construction is fallible
and is modelled separately by `mkStakeEvidence`. -/
structure StakeEvidence where
  block_number : Int
  rao_amount : Int
  destination_net_uid : Option Int
  source_net_uid : Option Int
  alpha_amount : Option Int
  delegate_hotkey_source : Option String
  delegate_hotkey_destination : Option String
deriving DecidableEq

/-- The block comparison constant in StakeEvidence.__post_init__:
`if self.block_number > 4920351:  # block dTAO was implemented`. -/
def dTAOBlock : Int := 4920351

/-- The protocol-upgrade height at which the subnet-id requirement starts to
apply: the least block number for which `block_number > 4920351` holds. -/
def protocolUpgradeHeight : Int := dTAOBlock + 1

/-- `StakeEvidence.__post_init__` (protocol.py lines 21-26) as a Boolean check:
construction succeeds iff no ValueError is raised. -/
def stakeEvidencePostInitOk (e : StakeEvidence) : Bool :=
  (!(decide (e.block_number > dTAOBlock))
      || (e.destination_net_uid.isSome || e.source_net_uid.isSome))
  && (e.delegate_hotkey_source.isSome || e.delegate_hotkey_destination.isSome)

/-- Constructing `StakeEvidence(...)`: returns `none` when `__post_init__`
raises a ValueError. -/
def mkStakeEvidence (block_number rao_amount : Int)
    (destination_net_uid source_net_uid alpha_amount : Option Int)
    (delegate_hotkey_source delegate_hotkey_destination : Option String) :
    Option StakeEvidence :=
  let e : StakeEvidence :=
    ⟨block_number, rao_amount, destination_net_uid, source_net_uid, alpha_amount,
     delegate_hotkey_source, delegate_hotkey_destination⟩
  if stakeEvidencePostInitOk e then some e else none

/-- `Edge` dataclass (protocol.py): evidence is a union of the two kinds. -/
structure Edge where
  coldkey_source : String
  coldkey_destination : String
  category : String
  type : String
  evidence : TransferEvidence ⊕ StakeEvidence
  coldkey_owner : Option String
deriving DecidableEq

/-- `Node` dataclass (protocol.py). -/
structure Node where
  id : String
  type : String
  origin : String
deriving DecidableEq

/-- `GraphPayload` dataclass (protocol.py). -/
structure GraphPayload where
  nodes : List Node
  edges : List Edge
deriving DecidableEq

/-! ## Processed event dictionaries (event_processor.py output, subgraph_generator.py input) -/

/-- The `evidence` sub-dictionary of a processed event.  Fields are the ones
event_processor.py ever writes; `none` = absent. -/
structure EvidenceDict where
  rao_amount : Option Int
  block_number : Option Int
  destination_net_uid : Option Int
  source_net_uid : Option Int
  alpha_amount : Option Int
  delegate_hotkey_source : Option String
  delegate_hotkey_destination : Option String
deriving DecidableEq

/-- The empty evidence dictionary (all keys absent). -/
def EvidenceDict.empty : EvidenceDict := ⟨none, none, none, none, none, none, none⟩

/-- A processed event dictionary. -/
structure Event where
  coldkey_source : Option String
  coldkey_destination : Option String
  coldkey_owner : Option String
  category : Option String
  type : Option String
  evidence : EvidenceDict
deriving DecidableEq

/-- `TransferEvidence(**evidence)`: Python raises TypeError when a required
key (rao_amount, block_number) is missing or an unexpected key is present. -/
def mkTransferEvidenceFromDict (d : EvidenceDict) : Option TransferEvidence :=
  match d.rao_amount, d.block_number with
  | some r, some b =>
      if d.destination_net_uid.isNone && d.source_net_uid.isNone
          && d.alpha_amount.isNone && d.delegate_hotkey_source.isNone
          && d.delegate_hotkey_destination.isNone
      then some ⟨r, b⟩ else none
  | _, _ => none

/-- `StakeEvidence(**evidence)`: TypeError when a required key is missing,
then `__post_init__` validation. -/
def mkStakeEvidenceFromDict (d : EvidenceDict) : Option StakeEvidence :=
  match d.rao_amount, d.block_number with
  | some r, some b =>
      mkStakeEvidence b r d.destination_net_uid d.source_net_uid d.alpha_amount
        d.delegate_hotkey_source d.delegate_hotkey_destination
  | _, _ => none

/-! ## constants.py (the scoring constants used by miner_scoring.py) -/

namespace Constants

noncomputable def RESPONSE_TIME_HALF_SCORE : ℝ := 2

noncomputable def INFLECTION_POINT : ℝ := 1000

noncomputable def STEEPNESS : ℝ := 0.005

end Constants

/-! ## miner_scoring.py -/

/-- `MinerScoring.calculate_volume_score`: sigmoid of the payload size. -/
noncomputable def calculate_volume_score (total_items : ℝ) : ℝ :=
  1 / (1 + Real.exp (-Constants.STEEPNESS * (total_items - Constants.INFLECTION_POINT)))

/-- `MinerScoring.calculate_responsiveness_score`: hyperbolic decay of latency. -/
noncomputable def calculate_responsiveness_score (response_time : ℝ) : ℝ :=
  Constants.RESPONSE_TIME_HALF_SCORE / (response_time + Constants.RESPONSE_TIME_HALF_SCORE)

/-- `ErrorPayload` (validation/graph_validation/errors.py, seen at its
interface in miner_scoring.py: only its `message` field is read). -/
structure ErrorPayload where
  message : String
deriving DecidableEq

/-- `MinerScore` record (validation/scoring.py interface): the fields
miner_scoring.py writes.  The runtime-generated id, batch_id and created_at
fields carry no scored content and are omitted. -/
structure MinerScore where
  uid : Nat
  coldkey : String
  hotkey : String
  overall_score_moving_average : ℝ
  overall_score : ℝ
  volume_score : ℝ
  volume : Nat
  responsiveness_score : ℝ
  response_time_seconds : ℝ
  novelty_score : Option ℝ
  validation_passed : Bool
  error_message : Option String

/-- The `importance` weights set in `MinerScoring.__init__`. -/
noncomputable def importance_volume : ℝ := 0.9

noncomputable def importance_responsiveness : ℝ := 0.1

/-- `MinerScoring.calculate_score`.  The external score repository is a
parameter `repo`; the code calls it once with `moving_average_denominator - 1`
(`find_latest_overall_scores`). -/
noncomputable def calculate_score (repo : Nat → List ℝ) (uid : Nat)
    (coldkey hotkey : String) (payload : GraphPayload ⊕ ErrorPayload)
    (response_time : ℝ) (moving_average_denominator : Nat) : MinerScore :=
  let previous_overall_scores := repo (moving_average_denominator - 1)
  match payload with
  | Sum.inr err =>
      { uid := uid, coldkey := coldkey, hotkey := hotkey,
        overall_score_moving_average :=
          (previous_overall_scores.sum + 0) / (moving_average_denominator : ℝ),
        overall_score := 0, volume_score := 0, volume := 0,
        responsiveness_score := 0, response_time_seconds := response_time,
        novelty_score := none, validation_passed := false,
        error_message := some err.message }
  | Sum.inl p =>
      let volume := p.nodes.length + p.edges.length
      let volume_score := calculate_volume_score (volume : ℝ)
      let responsiveness_score := calculate_responsiveness_score response_time
      let overall_score :=
        volume_score * importance_volume + responsiveness_score * importance_responsiveness
      { uid := uid, coldkey := coldkey, hotkey := hotkey,
        overall_score_moving_average :=
          (previous_overall_scores.sum + overall_score) / (moving_average_denominator : ℝ),
        overall_score := overall_score, volume_score := volume_score, volume := volume,
        responsiveness_score := responsiveness_score, response_time_seconds := response_time,
        novelty_score := none, validation_passed := true, error_message := none }

/-! ### normalize_scores (exact-arithmetic model over ℚ) -/

/-- Result of `normalize_scores`: the Python function returns a dict keyed by
uid in the general case, but a bare list in the all-equal case. -/
inductive NormResult where
  | dict : List (Nat × ℚ) → NormResult
  | list : List ℚ → NormResult
deriving DecidableEq

/-- Whether a `NormResult` is a dict (uid-keyed). -/
def NormResult.isDict : NormResult → Bool
  | NormResult.dict _ => true
  | NormResult.list _ => false

/-- Round half to even at integer precision (Python's `round` on exact values). -/
def roundHalfEven (q : ℚ) : ℤ :=
  let f := ⌊q⌋
  let r : ℚ := q - (f : ℚ)
  if r < 1/2 then f
  else if 1/2 < r then f + 1
  else if f % 2 = 0 then f else f + 1

/-- Python `round(x, 6)` on exact values. -/
def pyRound6 (q : ℚ) : ℚ := ((roundHalfEven (q * 1000000) : ℚ)) / 1000000

/-- `min(scores.values())` for a non-empty dict (0 for the empty dict, which
`normalize_scores` never reaches). -/
def minVal : List (Nat × ℚ) → ℚ
  | [] => 0
  | p :: rest => rest.foldl (fun m q => min m q.2) p.2

/-- `max(scores.values())` for a non-empty dict. -/
def maxVal : List (Nat × ℚ) → ℚ
  | [] => 0
  | p :: rest => rest.foldl (fun m q => max m q.2) p.2

/-- `normalize_scores` (miner_scoring.py lines 95-109).  The input dict is an
association list in insertion order. -/
def normalize_scores (scores : List (Nat × ℚ)) : NormResult :=
  match scores with
  | [] => NormResult.dict []
  | _ :: _ =>
      let min_score := minVal scores
      let max_score := maxVal scores
      if min_score = max_score then
        NormResult.list (List.replicate scores.length 1)
      else
        NormResult.dict (scores.map (fun p =>
          (p.1, pyRound6 ((p.2 - min_score) / (max_score - min_score)))))

/-! ## event_fetcher.py: fetch_all_events -/

section EventFetcher

variable {E : Type}

/-- Lookup in the `(runtime_version, block_number)`-keyed event cache. -/
def lookupEventCache (cache : List ((Nat × Int) × E)) (k : Nat × Int) : Option E :=
  (cache.find? (fun p => p.1 = k)).map (fun p => p.2)

/-- The cached-block search of `fetch_all_events` (lines 166-175): the first
runtime version in `range(100, 300)` under which the block is cached. -/
def findCached (cache : List ((Nat × Int) × E)) (b : Int) : Option E :=
  (List.range' 100 200).findSome? (fun rv => lookupEventCache cache (rv, b))

/-- `EventFetcher.fetch_all_events` (lines 144-248).  The whole uncached
branch (hash resolution, runtime grouping, batched RPC, lines 182-245) is
abstracted into the oracle `net`, applied to the uncached blocks: the claim
settled about this function asserts precisely that this branch is not reached
when every requested block is cached.  The `isinstance(b, int)` guard is
vacuous here because the argument is typed `List Int`. -/
def fetch_all_events (net : List Int → List (Int × E))
    (cache : List ((Nat × Int) × E)) (block_numbers : List Int) : List (Int × E) :=
  if block_numbers = [] then []
  else
    let uniq := block_numbers.dedup
    let cached_events := uniq.filterMap (fun b => (findCached cache b).map (fun e => (b, e)))
    let uncached_blocks := uniq.filter (fun b => (findCached cache b).isNone)
    if uncached_blocks = [] then cached_events
    else net uncached_blocks ++ cached_events

end EventFetcher

/-! ## event_processor.py: match_old_stake_events -/

/-- A staged `Withdraw` balance leg (`chain_operations["withdrawal"]`). -/
structure WithdrawalOp where
  coldkey_source : String
  rao_amount : Option Int
deriving DecidableEq

/-- A staged `Deposit` balance leg (`chain_operations["deposit"]`). -/
structure DepositOp where
  coldkey_destination : String
  rao_amount : Option Int
deriving DecidableEq

/-- The `chain_operations` dict staged by `process_balance_events`. -/
structure ChainOps where
  withdrawal : List WithdrawalOp
  deposit : List DepositOp
deriving DecidableEq

/-- The per-entry body of the `match_old_stake_events` loop: `some` is the
completed entry that is appended to `matched`, `none` means the leg is dropped. -/
def completeLeg (chain_operations : ChainOps) (entry : Event) : Option Event :=
  if entry.type = some "add" then
    match chain_operations.withdrawal.filter
        (fun x => x.rao_amount = entry.evidence.rao_amount) with
    | [m] => some { entry with coldkey_source := some m.coldkey_source }
    | _ => none
  else if entry.type = some "remove" then
    match chain_operations.deposit.filter
        (fun x => x.rao_amount = entry.evidence.rao_amount) with
    | [m] => some { entry with coldkey_destination := some m.coldkey_destination }
    | _ => none
  else none

/-- `EventProcessor.match_old_stake_events` (lines 204-223): the loop appends
each completed entry in input order. -/
def match_old_stake_events (old_stake_events : List Event)
    (chain_operations : ChainOps) : List Event :=
  old_stake_events.filterMap (completeLeg chain_operations)

/-! ## subgraph_generator.py -/

/-- One `{"neighbor": ..., "event": ...}` entry of the adjacency graph. -/
structure Conn where
  neighbor : String
  event : Event
deriving DecidableEq

/-- The adjacency graph: an insertion-ordered dict from account to its
connection list (`defaultdict(list)` in the source). -/
abbrev AdjGraph := List (String × List Conn)

/-- `graph[k].append(c)` on a `defaultdict(list)`: append to the existing
entry, or create a new entry at the end. -/
def adjAppend : AdjGraph → String → Conn → AdjGraph
  | [], k, c => [(k, [c])]
  | (k', cs) :: rest, k, c =>
      if k' = k then (k', cs ++ [c]) :: rest else (k', cs) :: adjAppend rest k c

/-- `adjacency_graph.get(a, [])`. -/
def lookupConns (g : AdjGraph) (a : String) : List Conn :=
  ((g.find? (fun p => p.1 = a)).map (fun p => p.2)).getD []

/-- The per-event body of `generate_adjacency_graph_from_events` (lines
73-89).  Python truthiness: a missing key and the empty string are both falsy. -/
def addEventConns (graph : AdjGraph) (event : Event) : AdjGraph :=
  match event.coldkey_source with
  | none => graph
  | some src =>
      if src = "" then graph
      else
        let g1 :=
          match event.coldkey_destination with
          | some dst =>
              if dst ≠ "" ∧ src ≠ dst then
                adjAppend (adjAppend graph src ⟨dst, event⟩) dst ⟨src, event⟩
              else graph
          | none => graph
        match event.coldkey_owner with
        | some ownr =>
            if ownr ≠ "" ∧ src ≠ ownr then
              adjAppend (adjAppend g1 src ⟨ownr, event⟩) ownr ⟨src, event⟩
            else g1
        | none => g1

/-- `SubgraphGenerator.generate_adjacency_graph_from_events` (lines 55-93).
The source iterates the events in order (its chunking into batches of 1000 is
order-preserving), so the traversal is a left fold. -/
def generate_adjacency_graph_from_events (events : List Event) : AdjGraph :=
  events.foldl addEventConns []

/-- The structural edge key computed at lines 134-141:
`(coldkey_source, coldkey_destination, category, type, rao_amount, block_number)`,
each read with `.get` (hence optional). -/
abbrev EdgeKey :=
  Option String × Option String × Option String × Option String × Option Int × Option Int

/-- The edge key of a processed event dictionary. -/
def eventKey (ev : Event) : EdgeKey :=
  (ev.coldkey_source, ev.coldkey_destination, ev.category, ev.type,
   ev.evidence.rao_amount, ev.evidence.block_number)

/-- The `try` block at lines 146-168: build a typed `Edge` from the event,
`none` when a required key is missing, the category is neither "balance" nor
"staking", or evidence construction raises. -/
def mkEdge (ev : Event) : Option Edge :=
  match ev.category with
  | none => none
  | some cat =>
      if cat = "balance" then
        match ev.coldkey_source, ev.coldkey_destination, ev.type with
        | some s, some d, some t =>
            (mkTransferEvidenceFromDict ev.evidence).map (fun te =>
              ⟨s, d, cat, t, Sum.inl te, none⟩)
        | _, _, _ => none
      else if cat = "staking" then
        match ev.coldkey_source, ev.coldkey_destination, ev.type with
        | some s, some d, some t =>
            (mkStakeEvidenceFromDict ev.evidence).map (fun se =>
              ⟨s, d, cat, t, Sum.inr se, ev.coldkey_owner⟩)
        | _, _, _ => none
      else none

/-- The structural key of a constructed `Edge`, for stating key uniqueness of
the built payload. -/
def edgeKeyOfEdge (e : Edge) : EdgeKey :=
  (some e.coldkey_source, some e.coldkey_destination, some e.category, some e.type,
   some (match e.evidence with | Sum.inl t => t.rao_amount | Sum.inr s => s.rao_amount),
   some (match e.evidence with | Sum.inl t => t.block_number | Sum.inr s => s.block_number))

/-- The mutable state of the breadth-first loop in
`generate_subgraph_from_adjacency_graph`: queue, seen_nodes, seen_edges,
nodes, edges. -/
structure BfsSt where
  queue : List String
  seenN : Finset String
  seenE : List EdgeKey
  nodes : List Node
  edges : List Edge

/-- The body of the `for conn in adjacency_graph.get(current, [])` loop
(lines 128-176): edge dedup + construction, then neighbor enqueue. -/
def processConn (st : BfsSt) (c : Conn) : BfsSt :=
  let k := eventKey c.event
  let seenE' := if k ∈ st.seenE then st.seenE else k :: st.seenE
  let edges' :=
    if k ∈ st.seenE then st.edges
    else
      match mkEdge c.event with
      | some e => st.edges ++ [e]
      | none => st.edges
  if c.neighbor ∈ st.seenN then
    { queue := st.queue, seenN := st.seenN, seenE := seenE', nodes := st.nodes,
      edges := edges' }
  else
    { queue := st.queue ++ [c.neighbor], seenN := insert c.neighbor st.seenN,
      seenE := seenE',
      nodes := st.nodes ++ [⟨c.neighbor, "wallet", "bittensor"⟩],
      edges := edges' }

/-- Process all connections of the dequeued account, in order. -/
def processConns (st : BfsSt) (conns : List Conn) : BfsSt :=
  conns.foldl processConn st

/-- All neighbor strings mentioned anywhere in the adjacency graph. -/
def allNeighbors (g : AdjGraph) : List String :=
  (g.map (fun p => p.2.map Conn.neighbor)).flatten

/-- The finite universe of accounts the traversal can ever mark seen:
the target plus every neighbor of the adjacency graph. -/
def adjUniverse (g : AdjGraph) (target : String) : Finset String :=
  insert target (allNeighbors g).toFinset

/-- The `while queue:` loop (lines 124-176).  Terminates because each
iteration either consumes a queue entry without marking anything seen, or
marks at least one new member of `adjUniverse` seen. -/
def bfsLoop (g : AdjGraph) (target : String) :
    List String → Finset String → List EdgeKey → List Node → List Edge →
    List Node × List Edge
  | [], _, _, nodes, edges => (nodes, edges)
  | q :: qs, seenN, seenE, nodes, edges =>
      let st := processConns ⟨qs, seenN, seenE, nodes, edges⟩ (lookupConns g q)
      bfsLoop g target st.queue st.seenN st.seenE st.nodes st.edges
termination_by queue seenN _ _ _ => ((adjUniverse g target \ seenN).card, queue.length)
decreasing_by
  have hseen : ∀ (s : BfsSt) (c : Conn),
      (processConn s c).seenN =
        if c.neighbor ∈ s.seenN then s.seenN else insert c.neighbor s.seenN := by
    intro s c
    by_cases h : c.neighbor ∈ s.seenN <;> simp [processConn, h]
  have hqueue : ∀ (s : BfsSt) (c : Conn),
      (processConn s c).queue =
        if c.neighbor ∈ s.seenN then s.queue else s.queue ++ [c.neighbor] := by
    intro s c
    by_cases h : c.neighbor ∈ s.seenN <;> simp [processConn, h]
  have hmono : ∀ (cs : List Conn) (s : BfsSt), s.seenN ⊆ (processConns s cs).seenN := by
    intro cs
    induction cs with
    | nil => intro s; simp [processConns]
    | cons c cs ih =>
        intro s
        have h1 : s.seenN ⊆ (processConn s c).seenN := by
          rw [hseen]
          by_cases h : c.neighbor ∈ s.seenN
          · rw [if_pos h]
          · rw [if_neg h]; exact Finset.subset_insert _ _
        have h2 : processConns s (c :: cs) = processConns (processConn s c) cs := by
          simp [processConns]
        rw [h2]
        exact h1.trans (ih (processConn s c))
  have hsub : ∀ (cs : List Conn) (s : BfsSt),
      (processConns s cs).seenN ⊆ s.seenN ∪ (cs.map Conn.neighbor).toFinset := by
    intro cs
    induction cs with
    | nil => intro s; simp [processConns]
    | cons c cs ih =>
        intro s x hx
        have h2 : processConns s (c :: cs) = processConns (processConn s c) cs := by
          simp [processConns]
        rw [h2] at hx
        have hx' := ih (processConn s c) hx
        rcases Finset.mem_union.mp hx' with h1 | h1
        · rw [hseen] at h1
          by_cases hc : c.neighbor ∈ s.seenN
          · rw [if_pos hc] at h1
            exact Finset.mem_union_left _ h1
          · rw [if_neg hc] at h1
            rcases Finset.mem_insert.mp h1 with h3 | h3
            · apply Finset.mem_union_right
              rw [h3]
              simp
            · exact Finset.mem_union_left _ h3
        · apply Finset.mem_union_right
          simp only [List.mem_toFinset, List.mem_map] at h1 ⊢
          obtain ⟨cc, hcc, hccx⟩ := h1
          exact ⟨cc, List.mem_cons_of_mem _ hcc, hccx⟩
  have hqor : ∀ (cs : List Conn) (s : BfsSt),
      ((processConns s cs).seenN = s.seenN ∧ (processConns s cs).queue = s.queue)
        ∨ s.seenN ⊂ (processConns s cs).seenN := by
    intro cs
    induction cs with
    | nil => intro s; left; exact ⟨rfl, rfl⟩
    | cons c cs ih =>
        intro s
        have h2 : processConns s (c :: cs) = processConns (processConn s c) cs := by
          simp [processConns]
        rw [h2]
        by_cases hc : c.neighbor ∈ s.seenN
        · have e1 : (processConn s c).seenN = s.seenN := by rw [hseen, if_pos hc]
          have e2 : (processConn s c).queue = s.queue := by rw [hqueue, if_pos hc]
          rcases ih (processConn s c) with ⟨hN, hQ⟩ | hs
          · left; exact ⟨by rw [hN, e1], by rw [hQ, e2]⟩
          · right; rw [e1] at hs; exact hs
        · right
          have e1 : s.seenN ⊂ (processConn s c).seenN := by
            rw [hseen, if_neg hc]; exact Finset.ssubset_insert hc
          exact lt_of_lt_of_le e1 (Finset.le_iff_subset.mpr (hmono cs (processConn s c)))
  have huniv : ∀ (a : String) (c : Conn),
      c ∈ lookupConns g a → c.neighbor ∈ adjUniverse g target := by
    intro a c hc
    unfold lookupConns at hc
    cases hfind : g.find? (fun p => p.1 = a) with
    | none => rw [hfind] at hc; simp at hc
    | some pr =>
        rw [hfind] at hc
        simp at hc
        have hpr : pr ∈ g := List.mem_of_find?_eq_some hfind
        unfold adjUniverse
        apply Finset.mem_insert_of_mem
        rw [List.mem_toFinset]
        unfold allNeighbors
        rw [List.mem_flatten]
        exact ⟨pr.2.map Conn.neighbor,
          List.mem_map_of_mem _ hpr, List.mem_map_of_mem _ hc⟩
  rcases hqor (lookupConns g q) ⟨qs, seenN, seenE, nodes, edges⟩ with ⟨hN, hQ⟩ | hs
  · rw [hN, hQ]
    apply Prod.Lex.right
    simp
  · obtain ⟨x, hx2, hx1⟩ := Finset.exists_of_ssubset hs
    have hxU : x ∈ adjUniverse g target := by
      have hx3 := hsub (lookupConns g q) ⟨qs, seenN, seenE, nodes, edges⟩ hx2
      rcases Finset.mem_union.mp hx3 with h | h
      · exact absurd h hx1
      · simp only [List.mem_toFinset, List.mem_map] at h
        obtain ⟨c, hc, hcx⟩ := h
        rw [← hcx]
        exact huniv q c hc
    apply Prod.Lex.left
    apply Finset.card_lt_card
    have hsub' : adjUniverse g target \ (processConns ⟨qs, seenN, seenE, nodes, edges⟩
        (lookupConns g q)).seenN ⊆ adjUniverse g target \ seenN :=
      Finset.sdiff_subset_sdiff (Finset.Subset.refl _) hs.subset
    rw [Finset.ssubset_iff_of_subset hsub']
    exact ⟨x, Finset.mem_sdiff.mpr ⟨hxU, hx1⟩,
      fun hmem => (Finset.mem_sdiff.mp hmem).2 hx2⟩

/-- The breadth-first construction (lines 106-179): seed with the target's
node, traverse, and assemble the payload. -/
def generate_subgraph_bfs (g : AdjGraph) (target_address : String) : GraphPayload :=
  let result := bfsLoop g target_address [target_address] {target_address} []
    [⟨target_address, "wallet", "bittensor"⟩] []
  ⟨result.1, result.2⟩

/-- `self._subgraph_cache`: insertion-ordered, keyed by
`(target_address, frozenset(adjacency_graph.keys()))`. -/
abbrev SubgraphCache := List ((String × Finset String) × GraphPayload)

/-- `frozenset(adjacency_graph.keys())`. -/
def adjKeys (g : AdjGraph) : Finset String := (g.map Prod.fst).toFinset

/-- Dict lookup in the subgraph cache. -/
def subgraphCacheLookup (cache : SubgraphCache) (k : String × Finset String) :
    Option GraphPayload :=
  (cache.find? (fun p => p.1 = k)).map (fun p => p.2)

/-- `SubgraphGenerator.generate_subgraph_from_adjacency_graph` (lines 95-193):
cache check, breadth-first construction, cache insertion, and eviction of the
10 oldest entries once the cache exceeds 100 entries. -/
def generate_subgraph_from_adjacency_graph (cache : SubgraphCache)
    (adjacency_graph : AdjGraph) (target_address : String) :
    GraphPayload × SubgraphCache :=
  let cache_key := (target_address, adjKeys adjacency_graph)
  match subgraphCacheLookup cache cache_key with
  | some p => (p, cache)
  | none =>
      let subgraph := generate_subgraph_bfs adjacency_graph target_address
      let cache1 := cache ++ [(cache_key, subgraph)]
      let cache2 := if 100 < cache1.length then cache1.drop 10 else cache1
      (subgraph, cache2)

/-! ## Spec-side characterizations (used to state the claims) -/

/-- The target's node as the traversal seeds it (line 120). -/
def targetNode (target : String) : Node := ⟨target, "wallet", "bittensor"⟩

/-- Reachability from the target through the adjacency graph. -/
inductive Reachable (g : AdjGraph) (target : String) : String → Prop
  | refl : Reachable g target target
  | step {a : String} {c : Conn} : Reachable g target a → c ∈ lookupConns g a →
      Reachable g target c.neighbor

/-- The loop invariant of the breadth-first traversal. -/
def BfsInv (g : AdjGraph) (target : String) (st : BfsSt) : Prop :=
  targetNode target ∈ st.nodes ∧
  (∀ nd ∈ st.nodes, Reachable g target nd.id) ∧
  (∀ a ∈ st.queue, Reachable g target a) ∧
  (st.edges.map edgeKeyOfEdge).Nodup ∧
  (∀ e ∈ st.edges, edgeKeyOfEdge e ∈ st.seenE)

/-- How many times one event is expected to connect `a` to `b` through its
source-destination pair: once if source and destination are both truthy and
distinct and `(a, b)` is that pair in either orientation (spec 4.4). -/
def dstContrib (ev : Event) (a b : String) : Nat :=
  match ev.coldkey_source, ev.coldkey_destination with
  | some s, some d =>
      if s ≠ "" ∧ d ≠ "" ∧ s ≠ d ∧ ((a = s ∧ d = b) ∨ (a = d ∧ s = b)) then 1 else 0
  | _, _ => 0

/-- How many times one event is expected to connect `a` to `b` through its
source-owner pair (spec 4.4). -/
def ownerContrib (ev : Event) (a b : String) : Nat :=
  match ev.coldkey_source, ev.coldkey_owner with
  | some s, some o =>
      if s ≠ "" ∧ o ≠ "" ∧ s ≠ o ∧ ((a = s ∧ o = b) ∨ (a = o ∧ s = b)) then 1 else 0
  | _, _ => 0

/-- The number of `{"neighbor": b, "event": ev}` entries in `a`'s adjacency
list. -/
def countConn (g : AdjGraph) (a b : String) (ev : Event) : Nat :=
  (lookupConns g a).count ⟨b, ev⟩

/-! # Theorems -/

/-- **C1.** Constructing the stake evidence of a StakeEdge fails iff the
required invariant is violated: construction fails exactly when no
delegate-hotkey field is given or when the block is at or after the
protocol-upgrade height (the first block strictly above the dTAO block
4920351) and no subnet-id field is given; before that height, evidence with a
delegate-hotkey field and no subnet-id fields constructs successfully. -/
theorem stake_evidence_construction_invariant
    (block_number rao_amount : Int) (dnet snet alpha : Option Int)
    (dhs dhd : Option String) :
    (mkStakeEvidence block_number rao_amount dnet snet alpha dhs dhd = none ↔
      (dhs = none ∧ dhd = none) ∨
        (protocolUpgradeHeight ≤ block_number ∧ dnet = none ∧ snet = none)) ∧
    (block_number < protocolUpgradeHeight → dhs.isSome ∨ dhd.isSome →
      mkStakeEvidence block_number rao_amount none none alpha dhs dhd =
        some ⟨block_number, rao_amount, none, none, alpha, dhs, dhd⟩) := by
  have hiff : protocolUpgradeHeight ≤ block_number ↔ dTAOBlock < block_number := by
    unfold protocolUpgradeHeight; omega
  constructor
  · by_cases hb : dTAOBlock < block_number <;>
      cases dnet <;> cases snet <;> cases dhs <;> cases dhd <;>
        simp [mkStakeEvidence, stakeEvidencePostInitOk, hb, hiff]
  · intro h1 h2
    have hb : ¬(dTAOBlock < block_number) := by
      unfold protocolUpgradeHeight at h1; omega
    rcases h2 with h2 | h2 <;>
      rcases Option.isSome_iff_exists.mp h2 with ⟨v, hv⟩ <;> subst hv <;>
        simp [mkStakeEvidence, stakeEvidencePostInitOk, hb]

/-- Witness for C1: at block 100 (before the upgrade height) construction with
a hotkey and no subnet ids succeeds; at block 4920352 it fails. -/
theorem stake_evidence_construction_invariant_witness :
    ((100 : Int) < protocolUpgradeHeight) ∧
    mkStakeEvidence 100 5 none none none (some "hk") none =
      some ⟨100, 5, none, none, none, some "hk", none⟩ ∧
    mkStakeEvidence 4920352 5 none none none (some "hk") none = none :=
  ⟨by decide,
   (stake_evidence_construction_invariant 100 5 none none none (some "hk") none).2
      (by decide) (Or.inl (by decide)),
   (stake_evidence_construction_invariant 4920352 5 none none none
        (some "hk") none).1.mpr
      (Or.inr ⟨by decide, rfl, rfl⟩)⟩

/-- **C3.** For every ErrorPayload, `calculate_score` returns volume 0, volume
score 0, responsiveness score 0, overall score 0, validation_passed false,
and a moving average equal to (sum of the window-1 previous overall scores
fetched from the repository + 0) divided by the window size. -/
theorem calculate_score_error_payload (repo : Nat → List ℝ) (uid : Nat)
    (coldkey hotkey : String) (err : ErrorPayload) (response_time : ℝ)
    (moving_average_denominator : Nat) :
    (calculate_score repo uid coldkey hotkey (Sum.inr err) response_time
        moving_average_denominator).volume = 0 ∧
    (calculate_score repo uid coldkey hotkey (Sum.inr err) response_time
        moving_average_denominator).volume_score = 0 ∧
    (calculate_score repo uid coldkey hotkey (Sum.inr err) response_time
        moving_average_denominator).responsiveness_score = 0 ∧
    (calculate_score repo uid coldkey hotkey (Sum.inr err) response_time
        moving_average_denominator).overall_score = 0 ∧
    (calculate_score repo uid coldkey hotkey (Sum.inr err) response_time
        moving_average_denominator).validation_passed = false ∧
    (calculate_score repo uid coldkey hotkey (Sum.inr err) response_time
        moving_average_denominator).overall_score_moving_average =
      ((repo (moving_average_denominator - 1)).sum + 0) /
        (moving_average_denominator : ℝ) :=
  ⟨rfl, rfl, rfl, rfl, rfl, rfl⟩

/-- Witness for C3 at a concrete repository, error payload, and window 20. -/
theorem calculate_score_error_payload_witness :
    (calculate_score (fun _ => [1]) 7 "ck" "hk" (Sum.inr ⟨"timeout"⟩) 3 20).volume = 0 ∧
    (calculate_score (fun _ => [1]) 7 "ck" "hk"
        (Sum.inr ⟨"timeout"⟩) 3 20).validation_passed = false ∧
    (calculate_score (fun _ => [1]) 7 "ck" "hk"
        (Sum.inr ⟨"timeout"⟩) 3 20).overall_score_moving_average =
      (([1] : List ℝ).sum + 0) / (20 : ℝ) :=
  ⟨(calculate_score_error_payload (fun _ => [1]) 7 "ck" "hk" ⟨"timeout"⟩ 3 20).1,
   (calculate_score_error_payload (fun _ => [1]) 7 "ck" "hk" ⟨"timeout"⟩ 3 20).2.2.2.2.1,
   (calculate_score_error_payload (fun _ => [1]) 7 "ck" "hk" ⟨"timeout"⟩ 3 20).2.2.2.2.2⟩

/-- **C7.** The volume score is the sigmoid
`1 / (1 + exp(-steepness * (volume - inflection)))`: strictly increasing in
volume, and equal to 1/2 at the inflection point (1000, with steepness
0.005); the responsiveness score `halfLife / (t + halfLife)` is strictly
decreasing in the response time and equals 1/2 at the half-life constant
(2 seconds). -/
theorem volume_and_responsiveness_score_properties :
    (∀ x y : ℝ, x < y → calculate_volume_score x < calculate_volume_score y) ∧
    calculate_volume_score Constants.INFLECTION_POINT = 1/2 ∧
    calculate_volume_score 1000 = 1/2 ∧
    (∀ s t : ℝ, 0 ≤ s → s < t →
      calculate_responsiveness_score t < calculate_responsiveness_score s) ∧
    calculate_responsiveness_score Constants.RESPONSE_TIME_HALF_SCORE = 1/2 ∧
    calculate_responsiveness_score 2 = 1/2 := by
  have hS : (0 : ℝ) < Constants.STEEPNESS := by norm_num [Constants.STEEPNESS]
  refine ⟨?_, ?_, ?_, ?_, ?_, ?_⟩
  · intro x y hxy
    unfold calculate_volume_score
    have hlt : Real.exp (-Constants.STEEPNESS * (y - Constants.INFLECTION_POINT)) <
        Real.exp (-Constants.STEEPNESS * (x - Constants.INFLECTION_POINT)) := by
      apply Real.exp_lt_exp.mpr
      nlinarith
    exact one_div_lt_one_div_of_lt (by positivity) (by linarith)
  · unfold calculate_volume_score
    norm_num [Real.exp_zero]
  · unfold calculate_volume_score Constants.INFLECTION_POINT
    norm_num [Real.exp_zero]
  · intro s t hs hst
    unfold calculate_responsiveness_score
    have h2 : (0 : ℝ) < Constants.RESPONSE_TIME_HALF_SCORE := by
      norm_num [Constants.RESPONSE_TIME_HALF_SCORE]
    exact div_lt_div_of_pos_left h2 (by linarith) (by linarith)
  · unfold calculate_responsiveness_score
    norm_num [Constants.RESPONSE_TIME_HALF_SCORE]
  · unfold calculate_responsiveness_score Constants.RESPONSE_TIME_HALF_SCORE
    norm_num

/-- Witness for C7: the monotonicity parts applied at concrete volumes 0 < 1
and response times 1 < 3. -/
theorem volume_and_responsiveness_score_properties_witness :
    calculate_volume_score 0 < calculate_volume_score 1 ∧
    calculate_responsiveness_score 3 < calculate_responsiveness_score 1 :=
  ⟨volume_and_responsiveness_score_properties.1 0 1 (by norm_num),
   volume_and_responsiveness_score_properties.2.2.2.1 1 3 (by norm_num) (by norm_num)⟩

/-- **C6.** A legacy "add" leg is completed (with the matching leg's source
account) iff exactly one staged Withdraw leg of the block has the same
amount; a "remove" leg analogously against Deposit legs; zero or multiple
matches drop the leg, and the per-block reconciliation keeps exactly the
completed legs in input order. -/
theorem match_old_stake_events_characterization (chain_operations : ChainOps)
    (entry : Event) (old_stake_events : List Event) :
    (entry.type = some "add" →
      ((completeLeg chain_operations entry).isSome ↔
        (chain_operations.withdrawal.filter
          (fun x => x.rao_amount = entry.evidence.rao_amount)).length = 1) ∧
      (∀ m, chain_operations.withdrawal.filter
            (fun x => x.rao_amount = entry.evidence.rao_amount) = [m] →
        completeLeg chain_operations entry =
          some { entry with coldkey_source := some m.coldkey_source })) ∧
    (entry.type = some "remove" →
      ((completeLeg chain_operations entry).isSome ↔
        (chain_operations.deposit.filter
          (fun x => x.rao_amount = entry.evidence.rao_amount)).length = 1) ∧
      (∀ m, chain_operations.deposit.filter
            (fun x => x.rao_amount = entry.evidence.rao_amount) = [m] →
        completeLeg chain_operations entry =
          some { entry with coldkey_destination := some m.coldkey_destination })) ∧
    match_old_stake_events old_stake_events chain_operations =
      old_stake_events.filterMap (completeLeg chain_operations) := by
  refine ⟨fun ht => ⟨?_, ?_⟩, fun ht => ⟨?_, ?_⟩, rfl⟩
  · cases hfil : chain_operations.withdrawal.filter
        (fun x => x.rao_amount = entry.evidence.rao_amount) with
    | nil => simp [completeLeg, ht, hfil]
    | cons m rest =>
        cases rest with
        | nil => simp [completeLeg, ht, hfil]
        | cons m2 rest2 => simp [completeLeg, ht, hfil]
  · intro m hm
    simp [completeLeg, ht, hm]
  · have hne : entry.type ≠ some "add" := by rw [ht]; simp
    cases hfil : chain_operations.deposit.filter
        (fun x => x.rao_amount = entry.evidence.rao_amount) with
    | nil => simp [completeLeg, ht, hne, hfil]
    | cons m rest =>
        cases rest with
        | nil => simp [completeLeg, ht, hne, hfil]
        | cons m2 rest2 => simp [completeLeg, ht, hne, hfil]
  · intro m hm
    have hne : entry.type ≠ some "add" := by rw [ht]; simp
    simp [completeLeg, ht, hne, hm]

/-- Witness for C6: an add leg of amount 500 against exactly one staged
Withdraw of amount 500 is completed with that leg's source account. -/
theorem match_old_stake_events_characterization_witness :
    ((⟨none, some "dk", none, some "staking", some "add",
        ⟨some 500, some 10, none, none, none, none, some "hk"⟩⟩ : Event).type
      = some "add") ∧
    completeLeg ⟨[⟨"w1", some 500⟩], []⟩
        ⟨none, some "dk", none, some "staking", some "add",
          ⟨some 500, some 10, none, none, none, none, some "hk"⟩⟩ =
      some ⟨some "w1", some "dk", none, some "staking", some "add",
        ⟨some 500, some 10, none, none, none, none, some "hk"⟩⟩ :=
  ⟨rfl,
   ((match_old_stake_events_characterization ⟨[⟨"w1", some 500⟩], []⟩
      ⟨none, some "dk", none, some "staking", some "add",
        ⟨some 500, some 10, none, none, none, none, some "hk"⟩⟩ []).1 rfl).2
      ⟨"w1", some 500⟩ (by decide)⟩

/-- The cached-pairs list never finds an entry for a block that was not
requested. -/
lemma find?_cachedPairs_of_notMem {E : Type} (cache : List ((Nat × Int) × E))
    (b : Int) :
    ∀ (l : List Int), b ∉ l →
      ((l.filterMap (fun x => (findCached cache x).map (fun e => (x, e)))).find?
        (fun p => p.1 = b)) = none := by
  intro l
  induction l with
  | nil => intro _; rfl
  | cons x xs ih =>
      intro hb
      have hbx : b ≠ x := fun h => hb (h ▸ List.mem_cons_self x xs)
      have hbxs : b ∉ xs := fun h => hb (List.mem_cons_of_mem _ h)
      cases hfc : findCached cache x with
      | none =>
          have hred : ((x :: xs).filterMap
              (fun y => (findCached cache y).map (fun e => (y, e)))) =
              xs.filterMap (fun y => (findCached cache y).map (fun e => (y, e))) := by
            simp [List.filterMap_cons, hfc]
          rw [hred]
          exact ih hbxs
      | some e =>
          have hred : ((x :: xs).filterMap
              (fun y => (findCached cache y).map (fun e => (y, e)))) =
              (x, e) :: xs.filterMap (fun y => (findCached cache y).map (fun e => (y, e))) := by
            simp [List.filterMap_cons, hfc]
          rw [hred, List.find?_cons_of_neg _ (by simp [hbx.symm])]
          exact ih hbxs

/-- On a duplicate-free request list, looking a requested block up in the
cached-pairs list yields exactly its cached entry. -/
lemma find?_cachedPairs {E : Type} (cache : List ((Nat × Int) × E)) (b : Int) :
    ∀ (l : List Int), l.Nodup → b ∈ l →
      ((l.filterMap (fun x => (findCached cache x).map (fun e => (x, e)))).find?
        (fun p => p.1 = b)) = (findCached cache b).map (fun e => (b, e)) := by
  intro l
  induction l with
  | nil => intro _ h; simp at h
  | cons x xs ih =>
      intro hnd hb
      rcases List.mem_cons.mp hb with rfl | hb'
      · cases hfc : findCached cache b with
        | none =>
            have hred : ((b :: xs).filterMap
                (fun y => (findCached cache y).map (fun e => (y, e)))) =
                xs.filterMap (fun y => (findCached cache y).map (fun e => (y, e))) := by
              simp [List.filterMap_cons, hfc]
            rw [hred]
            exact find?_cachedPairs_of_notMem cache b xs (List.nodup_cons.mp hnd).1
        | some e =>
            have hred : ((b :: xs).filterMap
                (fun y => (findCached cache y).map (fun e => (y, e)))) =
                (b, e) :: xs.filterMap (fun y => (findCached cache y).map (fun e => (y, e))) := by
              simp [List.filterMap_cons, hfc]
            rw [hred, List.find?_cons_of_pos _ (by simp)]
            rfl
      · have hxb : x ≠ b := by
          intro h
          subst h
          exact (List.nodup_cons.mp hnd).1 hb'
        cases hfc : findCached cache x with
        | none =>
            have hred : ((x :: xs).filterMap
                (fun y => (findCached cache y).map (fun e => (y, e)))) =
                xs.filterMap (fun y => (findCached cache y).map (fun e => (y, e))) := by
              simp [List.filterMap_cons, hfc]
            rw [hred]
            exact ih (List.nodup_cons.mp hnd).2 hb'
        | some e =>
            have hred : ((x :: xs).filterMap
                (fun y => (findCached cache y).map (fun e => (y, e)))) =
                (x, e) :: xs.filterMap (fun y => (findCached cache y).map (fun e => (y, e))) := by
              simp [List.filterMap_cons, hfc]
            rw [hred, List.find?_cons_of_neg _ (by simp [hxb])]
            exact ih (List.nodup_cons.mp hnd).2 hb'

/-- **C2.** For every non-empty list of block numbers all cached (under some
known runtime version), `fetch_all_events` is independent of the network
oracle — no network access happens — and returns exactly the cached entry for
each requested block. -/
theorem fetch_all_events_all_cached {E : Type}
    (net1 net2 : List Int → List (Int × E)) (cache : List ((Nat × Int) × E))
    (block_numbers : List Int) (hne : block_numbers ≠ [])
    (hc : ∀ b ∈ block_numbers, (findCached cache b).isSome) :
    fetch_all_events net1 cache block_numbers = fetch_all_events net2 cache block_numbers ∧
    fetch_all_events net1 cache block_numbers =
      block_numbers.dedup.filterMap (fun b => (findCached cache b).map (fun e => (b, e))) ∧
    ∀ b ∈ block_numbers,
      ((fetch_all_events net1 cache block_numbers).find? (fun p => p.1 = b)) =
        (findCached cache b).map (fun e => (b, e)) := by
  have huncached : block_numbers.dedup.filter (fun b => (findCached cache b).isNone) = [] := by
    rw [List.filter_eq_nil_iff]
    intro b hb
    have hs := hc b (List.mem_dedup.mp hb)
    simp only [Option.isNone_iff_eq_none, decide_eq_true_eq]
    intro hnone
    rw [hnone] at hs
    exact absurd hs (by simp)
  have hres : ∀ (net : List Int → List (Int × E)),
      fetch_all_events net cache block_numbers =
        block_numbers.dedup.filterMap (fun b => (findCached cache b).map (fun e => (b, e))) := by
    intro net
    unfold fetch_all_events
    rw [if_neg hne]
    simp [huncached]
  refine ⟨by rw [hres net1, hres net2], hres net1, ?_⟩
  intro b hb
  rw [hres net1]
  exact find?_cachedPairs cache b block_numbers.dedup (List.nodup_dedup _)
    (List.mem_dedup.mpr hb)

/-- Witness for C2: block 5 cached under runtime version 121; both network
oracles agree and the cached entry is returned. -/
theorem fetch_all_events_all_cached_witness :
    (([(5 : Int), 5] : List Int) ≠ []) ∧
    (∀ b ∈ [(5 : Int), 5], (findCached [(((121 : Nat), (5 : Int)), (7 : Nat))] b).isSome) ∧
    fetch_all_events (fun _ => []) [(((121 : Nat), (5 : Int)), (7 : Nat))] [5, 5] =
      fetch_all_events (fun _ => [(0, 0)]) [(((121 : Nat), (5 : Int)), (7 : Nat))] [5, 5] ∧
    fetch_all_events (fun _ => []) [(((121 : Nat), (5 : Int)), (7 : Nat))] [5, 5] =
      ([(5 : Int), 5].dedup).filterMap
        (fun b => (findCached [(((121 : Nat), (5 : Int)), (7 : Nat))] b).map (fun e => (b, e))) :=
  ⟨by decide, by decide,
   (fetch_all_events_all_cached (fun _ => []) (fun _ => [(0, 0)])
      [(((121 : Nat), (5 : Int)), (7 : Nat))] [5, 5] (by decide) (by decide)).1,
   (fetch_all_events_all_cached (fun _ => []) (fun _ => [(0, 0)])
      [(((121 : Nat), (5 : Int)), (7 : Nat))] [5, 5] (by decide) (by decide)).2.1⟩

/-- Folding min over the tail never exceeds the seed. -/
lemma foldl_min_le_init (l : List (Nat × ℚ)) :
    ∀ (a : ℚ), l.foldl (fun m q => min m q.2) a ≤ a := by
  induction l with
  | nil => intro a; simp
  | cons p l ih => intro a; exact le_trans (ih (min a p.2)) (min_le_left _ _)

/-- Folding min over the tail is a lower bound for every member. -/
lemma foldl_min_le_mem (l : List (Nat × ℚ)) :
    ∀ (a : ℚ) (p : Nat × ℚ), p ∈ l → l.foldl (fun m q => min m q.2) a ≤ p.2 := by
  induction l with
  | nil => intro a p h; simp at h
  | cons q l ih =>
      intro a p h
      rcases List.mem_cons.mp h with rfl | h'
      · exact le_trans (foldl_min_le_init l (min a p.2)) (min_le_right _ _)
      · exact ih _ p h'

/-- Folding max over the tail is at least the seed. -/
lemma init_le_foldl_max (l : List (Nat × ℚ)) :
    ∀ (a : ℚ), a ≤ l.foldl (fun m q => max m q.2) a := by
  induction l with
  | nil => intro a; simp
  | cons p l ih => intro a; exact le_trans (le_max_left _ _) (ih (max a p.2))

/-- Folding max over the tail is an upper bound for every member. -/
lemma mem_le_foldl_max (l : List (Nat × ℚ)) :
    ∀ (a : ℚ) (p : Nat × ℚ), p ∈ l → p.2 ≤ l.foldl (fun m q => max m q.2) a := by
  induction l with
  | nil => intro a p h; simp at h
  | cons q l ih =>
      intro a p h
      rcases List.mem_cons.mp h with rfl | h'
      · exact le_trans (le_max_right _ _) (init_le_foldl_max l (max a p.2))
      · exact ih _ p h'

/-- `minVal` bounds every score from below. -/
lemma minVal_le (scores : List (Nat × ℚ)) (p : Nat × ℚ) (hp : p ∈ scores) :
    minVal scores ≤ p.2 := by
  cases scores with
  | nil => simp at hp
  | cons q rest =>
      rcases List.mem_cons.mp hp with rfl | h'
      · exact foldl_min_le_init rest p.2
      · exact foldl_min_le_mem rest q.2 p h'

/-- `maxVal` bounds every score from above. -/
lemma le_maxVal (scores : List (Nat × ℚ)) (p : Nat × ℚ) (hp : p ∈ scores) :
    p.2 ≤ maxVal scores := by
  cases scores with
  | nil => simp at hp
  | cons q rest =>
      rcases List.mem_cons.mp hp with rfl | h'
      · exact init_le_foldl_max rest p.2
      · exact mem_le_foldl_max rest q.2 p h'

/-- On a non-empty input the minimum never exceeds the maximum. -/
lemma minVal_le_maxVal (scores : List (Nat × ℚ)) (h : scores ≠ []) :
    minVal scores ≤ maxVal scores := by
  cases scores with
  | nil => exact absurd rfl h
  | cons q rest =>
      exact le_trans (minVal_le (q :: rest) q (List.mem_cons_self q rest))
        (le_maxVal (q :: rest) q (List.mem_cons_self q rest))

/-- Round-half-even of a nonnegative rational is nonnegative. -/
lemma roundHalfEven_nonneg (q : ℚ) (hq : 0 ≤ q) : 0 ≤ roundHalfEven q := by
  have h1 : (0 : ℤ) ≤ ⌊q⌋ := Int.floor_nonneg.mpr hq
  unfold roundHalfEven
  dsimp only
  split
  · exact h1
  · split
    · omega
    · split <;> omega

/-- Round-half-even never exceeds the ceiling. -/
lemma roundHalfEven_le_ceil (q : ℚ) : roundHalfEven q ≤ ⌈q⌉ := by
  unfold roundHalfEven
  dsimp only
  by_cases h1 : q - (⌊q⌋ : ℚ) < 1/2
  · rw [if_pos h1]
    exact Int.floor_le_ceil q
  · rw [if_neg h1]
    have hlt : (⌊q⌋ : ℚ) < q := by
      have h2 : (1 : ℚ)/2 ≤ q - (⌊q⌋ : ℚ) := not_lt.mp h1
      linarith
    have hfc : ⌊q⌋ < ⌈q⌉ := Int.lt_ceil.mpr hlt
    split
    · omega
    · split <;> omega

/-- `pyRound6` maps `[0, 1]` into `[0, 1]`. -/
lemma pyRound6_mem_unit (q : ℚ) (h0 : 0 ≤ q) (h1 : q ≤ 1) :
    0 ≤ pyRound6 q ∧ pyRound6 q ≤ 1 := by
  unfold pyRound6
  constructor
  · apply div_nonneg _ (by norm_num)
    exact_mod_cast roundHalfEven_nonneg (q * 1000000) (by positivity)
  · rw [div_le_one (by norm_num)]
    have h2 : roundHalfEven (q * 1000000) ≤ ⌈q * 1000000⌉ := roundHalfEven_le_ceil _
    have h3 : ⌈(q * 1000000 : ℚ)⌉ ≤ (1000000 : ℤ) := by
      apply Int.ceil_le.mpr
      push_cast
      nlinarith
    exact_mod_cast le_trans h2 h3

/-- **C4 (counterexample).** On the all-equal input `{1: 5, 2: 5}` the
normalization helper returns the bare list `[1.0, 1.0]`, not a result keyed
by uid as in the non-equal case; the claim that the all-equal result is
"keyed the same way as the non-equal case" is false. -/
theorem normalize_scores_counterexample :
    normalize_scores [(1, (5 : ℚ)), (2, 5)] = NormResult.list [1, 1] ∧
    (normalize_scores [(1, (5 : ℚ)), (2, 5)]).isDict = false := by
  constructor <;> decide

/-- **C4 (amended).** On a non-empty input, min-max normalization returns: a
bare list of 1.0 of the input's length (not keyed by uid) when all scores are
equal; otherwise a uid-keyed map of `(s - min)/(max - min)` rounded to six
decimal places, every value lying in [0, 1]. -/
theorem normalize_scores_spec (scores : List (Nat × ℚ)) (hne : scores ≠ []) :
    (minVal scores = maxVal scores →
      normalize_scores scores = NormResult.list (List.replicate scores.length 1)) ∧
    (minVal scores ≠ maxVal scores →
      normalize_scores scores =
        NormResult.dict (scores.map (fun p =>
          (p.1, pyRound6 ((p.2 - minVal scores) / (maxVal scores - minVal scores))))) ∧
      ∀ p ∈ scores,
        0 ≤ pyRound6 ((p.2 - minVal scores) / (maxVal scores - minVal scores)) ∧
        pyRound6 ((p.2 - minVal scores) / (maxVal scores - minVal scores)) ≤ 1) := by
  constructor
  · intro heq
    cases scores with
    | nil => exact absurd rfl hne
    | cons q rest => simp [normalize_scores, heq]
  · intro hneq
    have hlt : minVal scores < maxVal scores :=
      lt_of_le_of_ne (minVal_le_maxVal scores hne) hneq
    constructor
    · cases scores with
      | nil => exact absurd rfl hne
      | cons q rest => simp [normalize_scores, hneq]
    · intro p hp
      have hmin : minVal scores ≤ p.2 := minVal_le scores p hp
      have hmax : p.2 ≤ maxVal scores := le_maxVal scores p hp
      apply pyRound6_mem_unit
      · apply div_nonneg <;> linarith
      · rw [div_le_one (by linarith)]
        linarith

/-- Witness for C4 (amended) on the concrete input `{1: 3, 2: 7}`. -/
theorem normalize_scores_spec_witness :
    (([(1, (3 : ℚ)), (2, 7)] : List (Nat × ℚ)) ≠ []) ∧
    (minVal [(1, (3 : ℚ)), (2, 7)] ≠ maxVal [(1, (3 : ℚ)), (2, 7)]) ∧
    normalize_scores [(1, (3 : ℚ)), (2, 7)] = NormResult.dict [(1, 0), (2, 1)] := by
  have hmin : minVal [(1, (3 : ℚ)), (2, 7)] = 3 := by
    norm_num [minVal, min_def]
  have hmax : maxVal [(1, (3 : ℚ)), (2, 7)] = 7 := by
    norm_num [maxVal, max_def]
  refine ⟨by simp, by rw [hmin, hmax]; norm_num, ?_⟩
  have h := ((normalize_scores_spec [(1, (3 : ℚ)), (2, 7)] (by simp)).2
    (by rw [hmin, hmax]; norm_num)).1
  rw [h, hmin, hmax]
  norm_num [pyRound6, roundHalfEven]

/-- Dict lookup on a cons cell. -/
lemma lookupConns_cons (k : String) (cs : List Conn) (rest : AdjGraph) (a : String) :
    lookupConns ((k, cs) :: rest) a = if k = a then cs else lookupConns rest a := by
  by_cases h : k = a
  · rw [if_pos h]
    unfold lookupConns
    rw [List.find?_cons_of_pos _ (by simp [h])]
    rfl
  · rw [if_neg h]
    unfold lookupConns
    rw [List.find?_cons_of_neg _ (by simp [h])]

/-- Appending one connection touches exactly the appended key's list. -/
lemma lookupConns_adjAppend (g : AdjGraph) (k : String) (c : Conn) (a : String) :
    lookupConns (adjAppend g k c) a =
      if a = k then lookupConns g a ++ [c] else lookupConns g a := by
  induction g with
  | nil =>
      by_cases h : a = k
      · subst h
        simp [adjAppend, lookupConns_cons, lookupConns]
      · simp [adjAppend, lookupConns_cons, h, Ne.symm h, lookupConns]
  | cons p rest ih =>
      obtain ⟨k', cs⟩ := p
      show lookupConns
        (if k' = k then (k', cs ++ [c]) :: rest else (k', cs) :: adjAppend rest k c) a = _
      by_cases h1 : k' = k
      · rw [if_pos h1]
        subst h1
        by_cases h2 : k' = a
        · subst h2
          rw [lookupConns_cons, if_pos rfl, if_pos rfl, lookupConns_cons, if_pos rfl]
        · rw [lookupConns_cons, if_neg h2, if_neg (fun h => h2 (h.symm)),
            lookupConns_cons, if_neg h2]
      · rw [if_neg h1]
        by_cases h2 : k' = a
        · subst h2
          rw [lookupConns_cons, if_pos rfl,
            if_neg (fun h => h1 (by rw [h])), lookupConns_cons, if_pos rfl]
        · rw [lookupConns_cons, if_neg h2, ih, lookupConns_cons, if_neg h2]

/-- Counting one `(neighbor, event)` entry after a single append. -/
lemma countConn_adjAppend (g : AdjGraph) (k : String) (c : Conn) (a b : String)
    (ev : Event) :
    countConn (adjAppend g k c) a b ev =
      countConn g a b ev + (if a = k ∧ c = (⟨b, ev⟩ : Conn) then 1 else 0) := by
  unfold countConn
  rw [lookupConns_adjAppend]
  by_cases h : a = k
  · rw [if_pos h, List.count_append]
    by_cases hc : c = (⟨b, ev⟩ : Conn)
    · simp [h, hc, List.count_cons]
    · simp [h, hc, List.count_cons]
  · rw [if_neg h]
    simp [h]

set_option maxHeartbeats 1600000 in
/-- The per-event step of adjacency building adds exactly the expected
source-destination and source-owner contributions. -/
lemma countConn_addEventConns (g : AdjGraph) (ev0 : Event) (a b : String)
    (ev : Event) :
    countConn (addEventConns g ev0) a b ev =
      countConn g a b ev +
        (if ev0 = ev then dstContrib ev0 a b + ownerContrib ev0 a b else 0) := by
  have hD : ∀ s, ev0.coldkey_source = some s → s = "" → dstContrib ev0 a b = 0 := by
    intro s hsrc hs0
    unfold dstContrib
    rw [hsrc]
    cases ev0.coldkey_destination <;> dsimp only <;>
      first
      | rfl
      | (split_ifs with h
         · exact absurd (hs0 ▸ h.1) (by simp)
         · rfl)
  have hO : ∀ s, ev0.coldkey_source = some s → s = "" → ownerContrib ev0 a b = 0 := by
    intro s hsrc hs0
    unfold ownerContrib
    rw [hsrc]
    cases ev0.coldkey_owner <;> dsimp only <;>
      first
      | rfl
      | (split_ifs with h
         · exact absurd (hs0 ▸ h.1) (by simp)
         · rfl)
  unfold addEventConns
  cases hs : ev0.coldkey_source with
  | none => simp [dstContrib, ownerContrib, hs]
  | some src =>
      dsimp only
      by_cases hse : src = ""
      · rw [if_pos hse]
        simp [hD src hs hse, hO src hs hse]
      · rw [if_neg hse]
        cases hd : ev0.coldkey_destination with
        | none =>
            cases ho : ev0.coldkey_owner with
            | none => simp [dstContrib, ownerContrib, hs, hd, ho]
            | some ownr =>
                dsimp only
                by_cases hoc : ownr ≠ "" ∧ src ≠ ownr
                · rw [if_pos hoc, countConn_adjAppend, countConn_adjAppend]
                  simp only [dstContrib, ownerContrib, hs, hd, ho, Conn.mk.injEq,
                    ne_eq, hse, not_false_eq_true, true_and]
                  split_ifs <;> simp_all <;> first | omega | tauto
                · rw [if_neg hoc]
                  simp only [dstContrib, ownerContrib, hs, hd, ho, ne_eq]
                  split_ifs <;> simp_all <;> first | omega | tauto
        | some dst =>
            dsimp only
            by_cases hdc : dst ≠ "" ∧ src ≠ dst
            · rw [if_pos hdc]
              cases ho : ev0.coldkey_owner with
              | none =>
                  dsimp only
                  rw [countConn_adjAppend, countConn_adjAppend]
                  simp only [dstContrib, ownerContrib, hs, hd, ho, Conn.mk.injEq,
                    ne_eq, hse, not_false_eq_true, true_and]
                  split_ifs <;> simp_all <;> first | omega | tauto
              | some ownr =>
                  dsimp only
                  by_cases hoc : ownr ≠ "" ∧ src ≠ ownr
                  · rw [if_pos hoc, countConn_adjAppend, countConn_adjAppend,
                      countConn_adjAppend, countConn_adjAppend]
                    simp only [dstContrib, ownerContrib, hs, hd, ho, Conn.mk.injEq,
                      ne_eq, hse, not_false_eq_true, true_and]
                    split_ifs <;> simp_all <;> first | omega | tauto
                  · rw [if_neg hoc, countConn_adjAppend, countConn_adjAppend]
                    simp only [dstContrib, ownerContrib, hs, hd, ho, Conn.mk.injEq,
                      ne_eq, hse, not_false_eq_true, true_and]
                    split_ifs <;> simp_all <;> first | omega | tauto
            · rw [if_neg hdc]
              cases ho : ev0.coldkey_owner with
              | none =>
                  dsimp only
                  simp only [dstContrib, ownerContrib, hs, hd, ho, ne_eq]
                  split_ifs <;> simp_all <;> first | omega | tauto
              | some ownr =>
                  dsimp only
                  by_cases hoc : ownr ≠ "" ∧ src ≠ ownr
                  · rw [if_pos hoc, countConn_adjAppend, countConn_adjAppend]
                    simp only [dstContrib, ownerContrib, hs, hd, ho, Conn.mk.injEq,
                      ne_eq, hse, not_false_eq_true, true_and]
                    split_ifs <;> simp_all <;> first | omega | tauto
                  · rw [if_neg hoc]
                    simp only [dstContrib, ownerContrib, hs, hd, ho, ne_eq]
                    split_ifs <;> simp_all <;> first | omega | tauto

/-- Folding the adjacency builder over an event list multiplies each event's
contribution by its multiplicity. -/
lemma countConn_foldl (events : List Event) :
    ∀ (g : AdjGraph) (a b : String) (ev : Event),
      countConn (events.foldl addEventConns g) a b ev =
        countConn g a b ev +
          events.count ev * (dstContrib ev a b + ownerContrib ev a b) := by
  induction events with
  | nil => intro g a b ev; simp
  | cons e es ih =>
      intro g a b ev
      rw [List.foldl_cons, ih, countConn_addEventConns, List.count_cons]
      by_cases h : e = ev
      · simp [h]
        ring
      · simp [h]

/-- **C9 (amended).** `generate_adjacency_graph_from_events` is characterized
by: each event occurrence contributes one undirected source-destination
connection when both accounts are truthy and distinct (appearing in each
endpoint's list paired with the other, symmetrically), and one undirected
source-owner connection when the owner is truthy and distinct from the
source; an event whose source equals its destination contributes no
source-destination entries, but still contributes its source-owner entries. -/
theorem adjacency_undirected_characterization (events : List Event)
    (a b : String) (ev : Event) :
    countConn (generate_adjacency_graph_from_events events) a b ev =
      events.count ev * (dstContrib ev a b + ownerContrib ev a b) ∧
    dstContrib ev a b = dstContrib ev b a ∧
    ownerContrib ev a b = ownerContrib ev b a ∧
    (ev.coldkey_source = ev.coldkey_destination → dstContrib ev a b = 0) := by
  refine ⟨?_, ?_, ?_, ?_⟩
  · have h := countConn_foldl events [] a b ev
    simpa [countConn, lookupConns] using h
  · unfold dstContrib
    cases ev.coldkey_source <;> cases ev.coldkey_destination <;> simp <;>
      split_ifs <;> simp_all <;> tauto
  · unfold ownerContrib
    cases ev.coldkey_source <;> cases ev.coldkey_owner <;> simp <;>
      split_ifs <;> simp_all <;> tauto
  · intro hsd
    unfold dstContrib
    cases hs : ev.coldkey_source with
    | none => simp
    | some s =>
        rw [hsd] at hs
        rw [hs]
        dsimp only
        split_ifs with h
        · exact absurd rfl h.2.2.1
        · rfl

/-- **C9 (counterexample).** A self-referential event (source = destination
= "A") carrying owner "B" does contribute adjacency entries: the built graph
is non-empty, refuting the claim that self-referential edges contribute no
adjacency entries. -/
theorem adjacency_self_edge_counterexample :
    ((⟨some "A", some "A", some "B", none, none, EvidenceDict.empty⟩ : Event).coldkey_source
      = (⟨some "A", some "A", some "B", none, none, EvidenceDict.empty⟩ : Event).coldkey_destination) ∧
    generate_adjacency_graph_from_events
        [⟨some "A", some "A", some "B", none, none, EvidenceDict.empty⟩] ≠ [] ∧
    lookupConns (generate_adjacency_graph_from_events
        [⟨some "A", some "A", some "B", none, none, EvidenceDict.empty⟩]) "A" =
      [⟨"B", ⟨some "A", some "A", some "B", none, none, EvidenceDict.empty⟩⟩] := by
  refine ⟨rfl, by decide, by decide⟩

/-- A successfully constructed edge carries exactly the structural key of the
event it was built from. -/
lemma mkEdge_key (ev : Event) (e : Edge) (h : mkEdge ev = some e) :
    edgeKeyOfEdge e = eventKey ev := by
  unfold mkEdge at h
  cases hcat : ev.category with
  | none => rw [hcat] at h; simp at h
  | some cat =>
      rw [hcat] at h
      dsimp only at h
      by_cases hb : cat = "balance"
      · rw [if_pos hb] at h
        cases hsrc : ev.coldkey_source with
        | none => rw [hsrc] at h; simp at h
        | some s =>
            rw [hsrc] at h
            cases hdst : ev.coldkey_destination with
            | none => rw [hdst] at h; simp at h
            | some d =>
                rw [hdst] at h
                cases htyp : ev.type with
                | none => rw [htyp] at h; simp at h
                | some t =>
                    rw [htyp] at h
                    cases hte : mkTransferEvidenceFromDict ev.evidence with
                    | none => rw [hte] at h; simp at h
                    | some te =>
                        rw [hte] at h
                        simp only [Option.map_some'] at h
                        have he := Option.some.inj h
                        subst he
                        unfold mkTransferEvidenceFromDict at hte
                        cases hra : ev.evidence.rao_amount with
                        | none => rw [hra] at hte; simp at hte
                        | some r =>
                            rw [hra] at hte
                            cases hbl : ev.evidence.block_number with
                            | none => rw [hbl] at hte; simp at hte
                            | some bn =>
                                rw [hbl] at hte
                                dsimp only at hte
                                split at hte
                                · have hte' := Option.some.inj hte
                                  subst hte'
                                  simp [edgeKeyOfEdge, eventKey, hcat, hsrc,
                                    hdst, htyp, hra, hbl]
                                · simp at hte
      · by_cases hst : cat = "staking"
        · rw [if_neg hb, if_pos hst] at h
          cases hsrc : ev.coldkey_source with
          | none => rw [hsrc] at h; simp at h
          | some s =>
              rw [hsrc] at h
              cases hdst : ev.coldkey_destination with
              | none => rw [hdst] at h; simp at h
              | some d =>
                  rw [hdst] at h
                  cases htyp : ev.type with
                  | none => rw [htyp] at h; simp at h
                  | some t =>
                      rw [htyp] at h
                      cases hse : mkStakeEvidenceFromDict ev.evidence with
                      | none => rw [hse] at h; simp at h
                      | some se =>
                          rw [hse] at h
                          simp only [Option.map_some'] at h
                          have he := Option.some.inj h
                          subst he
                          unfold mkStakeEvidenceFromDict at hse
                          cases hra : ev.evidence.rao_amount with
                          | none => rw [hra] at hse; simp at hse
                          | some r =>
                              rw [hra] at hse
                              cases hbl : ev.evidence.block_number with
                              | none => rw [hbl] at hse; simp at hse
                              | some bn =>
                                  rw [hbl] at hse
                                  dsimp only at hse
                                  unfold mkStakeEvidence at hse
                                  dsimp only at hse
                                  split at hse
                                  · have hse' := Option.some.inj hse
                                    subst hse'
                                    simp [edgeKeyOfEdge, eventKey, hcat, hsrc,
                                      hdst, htyp, hra, hbl]
                                  · simp at hse
        · rw [if_neg hb, if_neg hst] at h
          simp at h

/-- `processConn` leaves the seen-node set unchanged or inserts the neighbor. -/
lemma processConn_seenN (s : BfsSt) (c : Conn) :
    (processConn s c).seenN =
      if c.neighbor ∈ s.seenN then s.seenN else insert c.neighbor s.seenN := by
  by_cases h : c.neighbor ∈ s.seenN <;> simp [processConn, h]

/-- `processConn` leaves the queue unchanged or appends the neighbor. -/
lemma processConn_queue (s : BfsSt) (c : Conn) :
    (processConn s c).queue =
      if c.neighbor ∈ s.seenN then s.queue else s.queue ++ [c.neighbor] := by
  by_cases h : c.neighbor ∈ s.seenN <;> simp [processConn, h]

/-- `processConns` on a cons is a step followed by the rest. -/
lemma processConns_cons (s : BfsSt) (c : Conn) (cs : List Conn) :
    processConns s (c :: cs) = processConns (processConn s c) cs := rfl

/-- The seen-node set only grows while processing connections. -/
lemma processConns_seenN_mono (cs : List Conn) :
    ∀ (s : BfsSt), s.seenN ⊆ (processConns s cs).seenN := by
  induction cs with
  | nil => intro s; simp [processConns]
  | cons c cs ih =>
      intro s
      have h1 : s.seenN ⊆ (processConn s c).seenN := by
        rw [processConn_seenN]
        by_cases h : c.neighbor ∈ s.seenN
        · rw [if_pos h]
        · rw [if_neg h]; exact Finset.subset_insert _ _
      rw [processConns_cons]
      exact h1.trans (ih (processConn s c))

/-- The seen-node set grows only by neighbors of the processed connections. -/
lemma processConns_seenN_subset (cs : List Conn) :
    ∀ (s : BfsSt),
      (processConns s cs).seenN ⊆ s.seenN ∪ (cs.map Conn.neighbor).toFinset := by
  induction cs with
  | nil => intro s; simp [processConns]
  | cons c cs ih =>
      intro s x hx
      rw [processConns_cons] at hx
      have hx' := ih (processConn s c) hx
      rcases Finset.mem_union.mp hx' with h1 | h1
      · rw [processConn_seenN] at h1
        by_cases hc : c.neighbor ∈ s.seenN
        · rw [if_pos hc] at h1
          exact Finset.mem_union_left _ h1
        · rw [if_neg hc] at h1
          rcases Finset.mem_insert.mp h1 with h3 | h3
          · apply Finset.mem_union_right
            rw [h3]
            simp
          · exact Finset.mem_union_left _ h3
      · apply Finset.mem_union_right
        simp only [List.mem_toFinset, List.mem_map] at h1 ⊢
        obtain ⟨cc, hcc, hccx⟩ := h1
        exact ⟨cc, List.mem_cons_of_mem _ hcc, hccx⟩

/-- Either processing the connections touches neither the seen set nor the
queue, or it strictly grows the seen set. -/
lemma processConns_unchanged_or_grows (cs : List Conn) :
    ∀ (s : BfsSt),
      ((processConns s cs).seenN = s.seenN ∧ (processConns s cs).queue = s.queue)
        ∨ s.seenN ⊂ (processConns s cs).seenN := by
  induction cs with
  | nil => intro s; left; exact ⟨rfl, rfl⟩
  | cons c cs ih =>
      intro s
      rw [processConns_cons]
      by_cases hc : c.neighbor ∈ s.seenN
      · have e1 : (processConn s c).seenN = s.seenN := by
          rw [processConn_seenN, if_pos hc]
        have e2 : (processConn s c).queue = s.queue := by
          rw [processConn_queue, if_pos hc]
        rcases ih (processConn s c) with ⟨hN, hQ⟩ | hs
        · left; exact ⟨by rw [hN, e1], by rw [hQ, e2]⟩
        · right; rw [e1] at hs; exact hs
      · right
        have e1 : s.seenN ⊂ (processConn s c).seenN := by
          rw [processConn_seenN, if_neg hc]
          exact Finset.ssubset_insert hc
        exact lt_of_lt_of_le e1
          (Finset.le_iff_subset.mpr (processConns_seenN_mono cs (processConn s c)))

/-- Every neighbor found through `lookupConns` lies in the traversal universe. -/
lemma lookupConns_neighbor_mem (g : AdjGraph) (target : String) (a : String)
    (c : Conn) (hc : c ∈ lookupConns g a) : c.neighbor ∈ adjUniverse g target := by
  unfold lookupConns at hc
  cases hfind : g.find? (fun p => p.1 = a) with
  | none => rw [hfind] at hc; simp at hc
  | some pr =>
      rw [hfind] at hc
      simp at hc
      have hpr : pr ∈ g := List.mem_of_find?_eq_some hfind
      unfold adjUniverse
      apply Finset.mem_insert_of_mem
      rw [List.mem_toFinset]
      unfold allNeighbors
      rw [List.mem_flatten]
      exact ⟨pr.2.map Conn.neighbor, List.mem_map_of_mem _ hpr,
        List.mem_map_of_mem _ hc⟩

/-- `processConn` leaves the node list unchanged or appends the neighbor's
node. -/
lemma processConn_nodes (s : BfsSt) (c : Conn) :
    (processConn s c).nodes =
      if c.neighbor ∈ s.seenN then s.nodes
      else s.nodes ++ [⟨c.neighbor, "wallet", "bittensor"⟩] := by
  by_cases h : c.neighbor ∈ s.seenN <;> simp [processConn, h]

/-- `processConn` leaves the seen-edge set unchanged or conses the key. -/
lemma processConn_seenE (s : BfsSt) (c : Conn) :
    (processConn s c).seenE =
      if eventKey c.event ∈ s.seenE then s.seenE
      else eventKey c.event :: s.seenE := by
  by_cases h : c.neighbor ∈ s.seenN <;>
    by_cases hk : eventKey c.event ∈ s.seenE <;> simp [processConn, h, hk]

/-- `processConn` appends the constructed edge exactly when the key is fresh
and construction succeeds. -/
lemma processConn_edges (s : BfsSt) (c : Conn) :
    (processConn s c).edges =
      if eventKey c.event ∈ s.seenE then s.edges
      else
        match mkEdge c.event with
        | some e => s.edges ++ [e]
        | none => s.edges := by
  by_cases h : c.neighbor ∈ s.seenN <;>
    by_cases hk : eventKey c.event ∈ s.seenE <;> simp [processConn, h, hk]

/-- One connection step preserves the traversal invariant, given that the
connection's neighbor is reachable. -/
lemma processConn_inv (g : AdjGraph) (target : String) (st : BfsSt) (c : Conn)
    (hinv : BfsInv g target st) (hr : Reachable g target c.neighbor) :
    BfsInv g target (processConn st c) := by
  obtain ⟨h1, h2, h3, h4, h5⟩ := hinv
  refine ⟨?_, ?_, ?_, ?_, ?_⟩
  · rw [processConn_nodes]
    split
    · exact h1
    · exact List.mem_append_left _ h1
  · intro nd hnd
    rw [processConn_nodes] at hnd
    split at hnd
    · exact h2 nd hnd
    · rcases List.mem_append.mp hnd with h | h
      · exact h2 nd h
      · rw [List.mem_singleton.mp h]
        exact hr
  · intro a ha
    rw [processConn_queue] at ha
    split at ha
    · exact h3 a ha
    · rcases List.mem_append.mp ha with h | h
      · exact h3 a h
      · rw [List.mem_singleton.mp h]
        exact hr
  · rw [processConn_edges]
    split
    · exact h4
    · rename_i hk
      cases hme : mkEdge c.event with
      | none => exact h4
      | some e =>
          rw [List.map_append]
          refine List.Nodup.append h4 (by simp) ?_
          intro x hx1 hx2
          have hxe : x = edgeKeyOfEdge e := List.mem_singleton.mp hx2
          obtain ⟨e0, he0, hke0⟩ := List.mem_map.mp hx1
          apply hk
          rw [← mkEdge_key c.event e hme, ← hxe, ← hke0]
          exact h5 e0 he0
  · intro e' he'
    rw [processConn_edges] at he'
    rw [processConn_seenE]
    split at he'
    · rename_i hk
      rw [if_pos hk]
      exact h5 e' he'
    · rename_i hk
      rw [if_neg hk]
      cases hme : mkEdge c.event with
      | none =>
          rw [hme] at he'
          exact List.mem_cons_of_mem _ (h5 e' he')
      | some e =>
          rw [hme] at he'
          rcases List.mem_append.mp he' with h | h
          · exact List.mem_cons_of_mem _ (h5 e' h)
          · rw [List.mem_singleton.mp h, mkEdge_key c.event e hme]
            exact List.mem_cons_self _ _

/-- Processing a whole connection list preserves the traversal invariant. -/
lemma processConns_inv (g : AdjGraph) (target : String) :
    ∀ (cs : List Conn) (st : BfsSt), BfsInv g target st →
      (∀ c ∈ cs, Reachable g target c.neighbor) →
      BfsInv g target (processConns st cs) := by
  intro cs
  induction cs with
  | nil => intro st h _; exact h
  | cons c cs ih =>
      intro st h hr
      rw [processConns_cons]
      exact ih (processConn st c)
        (processConn_inv g target st c h (hr c (List.mem_cons_self _ _)))
        (fun c' hc' => hr c' (List.mem_cons_of_mem _ hc'))

/-- The breadth-first loop, started from any state satisfying the invariant,
returns a node list containing the target's node, only reachable nodes, and
an edge list with pairwise distinct structural keys. -/
theorem bfsLoop_inv (g : AdjGraph) (target : String) (queue : List String)
    (seenN : Finset String) (seenE : List EdgeKey) (nodes : List Node)
    (edges : List Edge)
    (hinv : BfsInv g target ⟨queue, seenN, seenE, nodes, edges⟩) :
    targetNode target ∈ (bfsLoop g target queue seenN seenE nodes edges).1 ∧
    (∀ nd ∈ (bfsLoop g target queue seenN seenE nodes edges).1,
      Reachable g target nd.id) ∧
    ((bfsLoop g target queue seenN seenE nodes edges).2.map edgeKeyOfEdge).Nodup := by
  cases queue with
  | nil =>
      obtain ⟨h1, h2, h3, h4, h5⟩ := hinv
      simp only [bfsLoop]
      exact ⟨h1, h2, h4⟩
  | cons q qs =>
      simp only [bfsLoop]
      have hq : Reachable g target q := hinv.2.2.1 q (List.mem_cons_self _ _)
      have hinv' : BfsInv g target ⟨qs, seenN, seenE, nodes, edges⟩ :=
        ⟨hinv.1, hinv.2.1,
         fun a ha => hinv.2.2.1 a (List.mem_cons_of_mem _ ha),
         hinv.2.2.2.1, hinv.2.2.2.2⟩
      have hnew := processConns_inv g target (lookupConns g q)
        ⟨qs, seenN, seenE, nodes, edges⟩ hinv'
        (fun c hc => Reachable.step hq hc)
      exact bfsLoop_inv g target _ _ _ _ _ hnew
termination_by ((adjUniverse g target \ seenN).card, queue.length)
decreasing_by
  rcases processConns_unchanged_or_grows (lookupConns g q)
      ⟨qs, seenN, seenE, nodes, edges⟩ with ⟨hN, hQ⟩ | hs
  · rw [hN, hQ]
    apply Prod.Lex.right
    have hq2 : queue = q :: qs := by assumption
    rw [hq2]
    simp
  · obtain ⟨x, hx2, hx1⟩ := Finset.exists_of_ssubset hs
    have hxU : x ∈ adjUniverse g target := by
      have hx3 := processConns_seenN_subset (lookupConns g q)
        ⟨qs, seenN, seenE, nodes, edges⟩ hx2
      rcases Finset.mem_union.mp hx3 with h | h
      · exact absurd h hx1
      · simp only [List.mem_toFinset, List.mem_map] at h
        obtain ⟨c, hc, hcx⟩ := h
        rw [← hcx]
        exact lookupConns_neighbor_mem g target q c hc
    apply Prod.Lex.left
    apply Finset.card_lt_card
    have hsub' : adjUniverse g target \ (processConns ⟨qs, seenN, seenE, nodes, edges⟩
        (lookupConns g q)).seenN ⊆ adjUniverse g target \ seenN :=
      Finset.sdiff_subset_sdiff (Finset.Subset.refl _) hs.subset
    rw [Finset.ssubset_iff_of_subset hsub']
    exact ⟨x, Finset.mem_sdiff.mpr ⟨hxU, hx1⟩,
      fun hmem => (Finset.mem_sdiff.mp hmem).2 hx2⟩

/-- **C5.** For every adjacency graph and target, the payload built by the
breadth-first traversal contains the target's node (even with zero edges),
every node in it is reachable from the target through the adjacency (or is
the target itself), and no two edges share the same
(source, destination, category, type, amount, blockNumber) key. -/
theorem subgraph_payload_invariants (g : AdjGraph) (t : String) :
    targetNode t ∈ (generate_subgraph_bfs g t).nodes ∧
    (∀ nd ∈ (generate_subgraph_bfs g t).nodes, Reachable g t nd.id) ∧
    ((generate_subgraph_bfs g t).edges.map edgeKeyOfEdge).Nodup := by
  have hinv : BfsInv g t ⟨[t], {t}, [], [targetNode t], []⟩ := by
    refine ⟨List.mem_singleton.mpr rfl, ?_, ?_, by simp, by simp⟩
    · intro nd hnd
      rw [List.mem_singleton.mp hnd]
      exact Reachable.refl
    · intro a ha
      rw [List.mem_singleton.mp ha]
      exact Reachable.refl
  exact bfsLoop_inv g t [t] {t} [] [targetNode t] [] hinv

/-- Witness for C5: in the empty adjacency graph, the payload for target "a"
still contains the target's node. -/
theorem subgraph_payload_invariants_witness :
    targetNode "a" ∈ (generate_subgraph_bfs [] "a").nodes :=
  (subgraph_payload_invariants [] "a").1

/-- Searching past a prefix with no match continues in the suffix. -/
lemma find?_append_of_none {α : Type} (p : α → Bool) :
    ∀ (l₁ l₂ : List α), l₁.find? p = none → (l₁ ++ l₂).find? p = l₂.find? p := by
  intro l₁
  induction l₁ with
  | nil => intro l₂ _; rfl
  | cons a l ih =>
      intro l₂ h
      have hpa : ¬p a = true := by
        intro hpa
        rw [List.find?_cons_of_pos _ hpa] at h
        exact absurd h (by simp)
      have hl : l.find? p = none := by
        rw [List.find?_cons_of_neg _ hpa] at h
        exact h
      rw [List.cons_append, List.find?_cons_of_neg _ hpa]
      exact ih l₂ hl

/-- Dropping within the first part of an append distributes. -/
lemma drop_append_of_le_length {α : Type} :
    ∀ (n : Nat) (l₁ l₂ : List α), n ≤ l₁.length →
      (l₁ ++ l₂).drop n = l₁.drop n ++ l₂ := by
  intro n
  induction n with
  | zero => intro l₁ l₂ _; rfl
  | succ n ih =>
      intro l₁ l₂ h
      cases l₁ with
      | nil => simp at h
      | cons a l =>
          simp only [List.cons_append, List.drop_succ_cons]
          exact ih l l₂ (by simpa using h)

/-- After a miss, inserting the computed payload (with the source's
oldest-10 eviction once the cache exceeds 100 entries) makes the key hit,
and it hits exactly the inserted payload. -/
lemma subgraphCacheLookup_after_insert (cache : SubgraphCache)
    (key : String × Finset String) (p : GraphPayload)
    (h : subgraphCacheLookup cache key = none) :
    subgraphCacheLookup
      (if 100 < (cache ++ [(key, p)]).length
        then (cache ++ [(key, p)]).drop 10 else cache ++ [(key, p)]) key = some p := by
  have hnone : cache.find? (fun q => q.1 = key) = none := by
    unfold subgraphCacheLookup at h
    cases hf : cache.find? (fun q => q.1 = key) with
    | none => rfl
    | some pr => rw [hf] at h; exact absurd h (by simp)
  have hone : ([((key, p) : (String × Finset String) × GraphPayload)].find?
      (fun q => q.1 = key)) = some (key, p) :=
    List.find?_cons_of_pos _ (by simp)
  split
  · rename_i hlen
    have h10 : 10 ≤ cache.length := by
      simp only [List.length_append, List.length_singleton] at hlen
      omega
    rw [drop_append_of_le_length 10 cache [(key, p)] h10]
    unfold subgraphCacheLookup
    have hdropnone : (cache.drop 10).find? (fun q => q.1 = key) = none := by
      rw [List.find?_eq_none]
      intro x hx
      exact List.find?_eq_none.mp hnone x (List.mem_of_mem_drop hx)
    rw [find?_append_of_none _ _ _ hdropnone, hone]
    rfl
  · unfold subgraphCacheLookup
    rw [find?_append_of_none _ _ _ hnone, hone]
    rfl

/-- **C8.** `generate_subgraph_from_adjacency_graph` is idempotent: calling
it twice in succession (threading its cache state) with the identical
adjacency graph and target yields the identical payload. -/
theorem generate_subgraph_idempotent (cache : SubgraphCache) (g : AdjGraph)
    (t : String) :
    (generate_subgraph_from_adjacency_graph
      (generate_subgraph_from_adjacency_graph cache g t).2 g t).1 =
    (generate_subgraph_from_adjacency_graph cache g t).1 := by
  cases hl : subgraphCacheLookup cache (t, adjKeys g) with
  | some p =>
      have h1 : generate_subgraph_from_adjacency_graph cache g t = (p, cache) := by
        unfold generate_subgraph_from_adjacency_graph
        dsimp only
        rw [hl]
      rw [h1]
      unfold generate_subgraph_from_adjacency_graph
      dsimp only
      rw [hl]
  | none =>
      have h1 : generate_subgraph_from_adjacency_graph cache g t =
          (generate_subgraph_bfs g t,
            if 100 < (cache ++ [((t, adjKeys g), generate_subgraph_bfs g t)]).length
            then (cache ++ [((t, adjKeys g), generate_subgraph_bfs g t)]).drop 10
            else cache ++ [((t, adjKeys g), generate_subgraph_bfs g t)]) := by
        unfold generate_subgraph_from_adjacency_graph
        dsimp only
        rw [hl]
      rw [h1]
      unfold generate_subgraph_from_adjacency_graph
      dsimp only
      rw [subgraphCacheLookup_after_insert cache _ _ hl]

/-- Witness for C8 at the empty cache, empty adjacency, and target "a". -/
theorem generate_subgraph_idempotent_witness :
    (generate_subgraph_from_adjacency_graph
      (generate_subgraph_from_adjacency_graph [] [] "a").2 [] "a").1 =
    (generate_subgraph_from_adjacency_graph [] [] "a").1 :=
  generate_subgraph_idempotent [] [] "a"

/-- **C10.** The subgraph cache is keyed only by the target and the set of
account keys of the adjacency graph: starting from an empty cache, building
for adjacency A and then for any adjacency B with the same key set returns,
on the second call, the payload computed from A — B's entries are never
traversed. -/
theorem subgraph_cache_ignores_adjacency_contents (A B : AdjGraph) (t : String)
    (hk : adjKeys A = adjKeys B) :
    (generate_subgraph_from_adjacency_graph [] A t).1 =
      generate_subgraph_bfs A t ∧
    (generate_subgraph_from_adjacency_graph
        (generate_subgraph_from_adjacency_graph [] A t).2 B t).1 =
      generate_subgraph_bfs A t := by
  have hl : subgraphCacheLookup [] (t, adjKeys A) = none := rfl
  have h1 : generate_subgraph_from_adjacency_graph [] A t =
      (generate_subgraph_bfs A t,
        [((t, adjKeys A), generate_subgraph_bfs A t)]) := by
    unfold generate_subgraph_from_adjacency_graph
    dsimp only
    rw [hl]
    simp
  refine ⟨by rw [h1], ?_⟩
  rw [h1]
  unfold generate_subgraph_from_adjacency_graph
  dsimp only
  have h2 : subgraphCacheLookup [((t, adjKeys A), generate_subgraph_bfs A t)]
      (t, adjKeys B) = some (generate_subgraph_bfs A t) := by
    unfold subgraphCacheLookup
    rw [← hk]
    rw [List.find?_cons_of_pos _ (by simp)]
    rfl
  rw [h2]

/-- Witness for C10: adjacency A maps "a" to a neighbor "b", adjacency B maps
"a" to nothing; both have key set {"a"}; the second call returns A's payload. -/
theorem subgraph_cache_ignores_adjacency_contents_witness :
    (adjKeys [("a", [⟨"b", ⟨none, none, none, none, none, EvidenceDict.empty⟩⟩])] =
      adjKeys [("a", [])]) ∧
    (generate_subgraph_from_adjacency_graph
        (generate_subgraph_from_adjacency_graph []
          [("a", [⟨"b", ⟨none, none, none, none, none, EvidenceDict.empty⟩⟩])] "a").2
        [("a", [])] "a").1 =
      generate_subgraph_bfs
        [("a", [⟨"b", ⟨none, none, none, none, none, EvidenceDict.empty⟩⟩])] "a" :=
  ⟨by decide,
   (subgraph_cache_ignores_adjacency_contents
      [("a", [⟨"b", ⟨none, none, none, none, none, EvidenceDict.empty⟩⟩])]
      [("a", [])] "a" (by decide)).2⟩

end Patrol
